import Mathlib

/-!
# MyOwnCrypto: the shift (Caesar) and running-key (Vigenere) ciphers

Shallow embedding of `src/Crypto/Caesar.cpp` and `src/Crypto/Vigenere.cpp`.

* A wide character (`wchar_t`) is the natural number of its code unit; a
  `std::wstring` is a `List Nat`.
* `std::size_t` is a natural number below `2 ^ 64`; sums and differences of
  `size_t` values are reduced modulo `2 ^ 64` where the source computes them.
* `std::wstring::find` returns `npos = 2 ^ 64 - 1` when the character is absent.
* The two translation units define the alphabets, `UPPER_VALUE`, `IsUpper`,
  `ToUpper` and `ToLower` with identical text (lines 8 to 30 of both files);
  they are embedded once, in the namespace `Crypto`.
-/

namespace Crypto

/-! ## Wide characters, wide strings and `size_t` -/

/-- Code unit of a wide character literal such as `L'A'`. -/
def wch (c : Char) : Nat := c.toNat

/-- Code units of a wide string literal such as `L"en"`. -/
def wstr (s : String) : List Nat := s.toList.map Char.toNat

/-- Number of values of `std::size_t` (64 bits). -/
def SIZE_T : Nat := 2 ^ 64

/-- Number of values of `uint32_t`. -/
def UINT32 : Nat := 2 ^ 32

/-- The constant `std::wstring::npos`, the largest `size_t`. -/
def npos : Nat := SIZE_T - 1

/-- Sum of two `size_t` values. -/
def addSz (x y : Nat) : Nat := (x + y) % SIZE_T

/-- Difference of two `size_t` values (wraps around below zero). -/
def subSz (x y : Nat) : Nat := (x + (SIZE_T - y % SIZE_T)) % SIZE_T

/-- Search of `std::wstring::find(wchar_t)` from index `i` on. -/
def findFrom (c : Nat) : List Nat → Nat → Nat
  | [], _ => npos
  | x :: xs, i => if x = c then i else findFrom c xs (i + 1)

/-- The call `a.find(c)`: index of the first occurrence of `c`, or `npos`. -/
def find (a : List Nat) (c : Nat) : Nat := findFrom c a 0

/-- The access `a[i]` of a wide string (every index the ciphers use is below
the size of the alphabet). -/
def charAt (a : List Nat) (i : Nat) : Nat := a.getD i 0

/-! ## Alphabet utilities (lines 8 to 30 of both source files) -/

def ALPHABET_EN : List Nat := wstr "abcdefghijklmnopqrstuvwxyz"

def ALPHABET_RU : List Nat := wstr "абвгдеёжзийклмнопрстуфхцчшщъыьэюя"

def ALPHABET_EN_SIZE : Nat := 26

def ALPHABET_RU_SIZE : Nat := 33

/-- The constant `uint32_t UPPER_VALUE = L'A' - L'a'`: the difference `65 - 97`
is the `int` value `-32`, converted to `uint32_t`. -/
def UPPER_VALUE : Nat := (UINT32 + wch 'A' - wch 'a') % UINT32

def IsUpper (c : Nat) : Bool :=
  (decide (c ≥ wch 'A') && decide (c ≤ wch 'Z')) ||
    (decide (c ≥ wch 'А') && decide (c ≤ wch 'Я'))

/-- The function `ToUpper`: `c - UPPER_VALUE` is computed in `uint32_t`. -/
def ToUpper (c : Nat) : Nat :=
  if (decide (c ≥ wch 'a') && decide (c ≤ wch 'z')) ||
      (decide (c ≥ wch 'а') && decide (c ≤ wch 'я')) then
    (c % UINT32 + (UINT32 - UPPER_VALUE)) % UINT32
  else c

/-- The function `ToLower`: `c + UPPER_VALUE` is computed in `uint32_t`. -/
def ToLower (c : Nat) : Nat :=
  if (decide (c ≥ wch 'A') && decide (c ≤ wch 'Z')) ||
      (decide (c ≥ wch 'А') && decide (c ≤ wch 'Я')) then
    (c % UINT32 + UPPER_VALUE) % UINT32
  else c

/-- The block `if (IsUpper(it)) { wchar_t& c = result.back(); c = ToUpper(c); }`
that closes the loop body of every `Encode` and `Decode`. -/
def restoreCase (it : Nat) (result : List Nat) : List Nat :=
  if IsUpper it then
    match result.getLast? with
    | some c => result.dropLast ++ [ToUpper c]
    | none => result
  else result

/-! ## The shift cipher (`Caesar.cpp`) -/

namespace Caesar

/-- Body of the loop of `Caesar::Encode` (lines 42 to 75): `result` is the
string built so far, `it` the current character. -/
def EncodeStep (key : Nat) (result : List Nat) (it : Nat) : List Nat :=
  let pos := find ALPHABET_EN (ToLower it)
  if pos ≠ npos then
    restoreCase it (result ++ [charAt ALPHABET_EN (addSz pos key % ALPHABET_EN_SIZE)])
  else
    let pos := find ALPHABET_RU (ToLower it)
    if pos ≠ npos then
      restoreCase it (result ++ [charAt ALPHABET_RU (addSz pos key % ALPHABET_RU_SIZE)])
    else
      result ++ [it]

/-- The function `Caesar::Encode` (lines 32 to 77). -/
def Encode (input : List Nat) (key : Nat) : List Nat :=
  if input.isEmpty then []
  else input.foldl (EncodeStep key) []

/-- Body of the loop of `Caesar::Decode` (lines 89 to 128). -/
def DecodeStep (key : Nat) (result : List Nat) (it : Nat) : List Nat :=
  let pos := find ALPHABET_EN (ToLower it)
  if pos ≠ npos then
    let pos := if key > pos then addSz pos ALPHABET_EN_SIZE else pos
    restoreCase it (result ++ [charAt ALPHABET_EN (subSz pos key % ALPHABET_EN_SIZE)])
  else
    let pos := find ALPHABET_RU (ToLower it)
    if pos ≠ npos then
      let pos := if key > pos then addSz pos ALPHABET_RU_SIZE else pos
      restoreCase it (result ++ [charAt ALPHABET_RU (subSz pos key % ALPHABET_RU_SIZE)])
    else
      result ++ [it]

/-- The function `Caesar::Decode` (lines 79 to 130). -/
def Decode (input : List Nat) (key : Nat) : List Nat :=
  if input.isEmpty then []
  else input.foldl (DecodeStep key) []

end Caesar

/-! ## The running-key cipher (`Vigenere.cpp`) -/

namespace Vigenere

/-- The selection `(language == L"en") ? ALPHABET_EN : ALPHABET_RU`. -/
def selectAlphabet (language : List Nat) : List Nat :=
  if language = wstr "en" then ALPHABET_EN else ALPHABET_RU

/-- The selection `(language == L"en") ? ALPHABET_EN_SIZE : ALPHABET_RU_SIZE`. -/
def selectSize (language : List Nat) : Nat :=
  if language = wstr "en" then ALPHABET_EN_SIZE else ALPHABET_RU_SIZE

/-- The function `Vigenere::VerifyKey` (lines 32 to 44): the loop returns
`false` at the first character of the key that `a.find` does not locate. -/
def VerifyKey (language key : List Nat) : Bool :=
  if language.isEmpty || key.isEmpty then false
  else
    let a := selectAlphabet language
    key.all (fun it => decide (find a it ≠ npos))

/-- Body of the loop of `Vigenere::Encode` (lines 61 to 82) on the state
`(result, kpos)`. -/
def EncodeStep (a : List Nat) (n : Nat) (key : List Nat) (st : List Nat × Nat) (it : Nat) :
    List Nat × Nat :=
  let result := st.1
  let kpos := st.2
  let pos := find a (ToLower it)
  if pos = npos then
    (result ++ [it], kpos)
  else
    let result := result ++ [charAt a (addSz pos (find a (charAt key kpos)) % n)]
    let kpos := addSz kpos 1
    let kpos := if kpos ≥ key.length then 0 else kpos
    (restoreCase it result, kpos)

/-- The function `Vigenere::Encode` (lines 46 to 85). -/
def Encode (language input key : List Nat) : List Nat :=
  if language.isEmpty || input.isEmpty || key.isEmpty then []
  else
    let a := selectAlphabet language
    let n := selectSize language
    (input.foldl (EncodeStep a n key) ([], 0)).1

/-- Body of the loop of `Vigenere::Decode` (lines 102 to 126) on the state
`(result, kpos)`. -/
def DecodeStep (a : List Nat) (n : Nat) (key : List Nat) (st : List Nat × Nat) (it : Nat) :
    List Nat × Nat :=
  let result := st.1
  let kpos := st.2
  let pos := find a (ToLower it)
  if pos = npos then
    (result ++ [it], kpos)
  else
    let pos := if find a (charAt key kpos) > pos then addSz pos n else pos
    let result := result ++ [charAt a (subSz pos (find a (charAt key kpos)) % n)]
    let kpos := addSz kpos 1
    let kpos := if kpos ≥ key.length then 0 else kpos
    (restoreCase it result, kpos)

/-- The function `Vigenere::Decode` (lines 87 to 130). -/
def Decode (language input key : List Nat) : List Nat :=
  if language.isEmpty || input.isEmpty || key.isEmpty then []
  else
    let a := selectAlphabet language
    let n := selectSize language
    (input.foldl (DecodeStep a n key) ([], 0)).1

end Vigenere

/-! ## Notions of the specification -/

/-- Upper-case form of a letter of the two alphabets, in the words of the
specification: `Ё` for `ё`, the code point 32 below otherwise. -/
def upperForm (d : Nat) : Nat := if d = wch 'ё' then wch 'Ё' else d - 32

/-- Case-insensitive membership in an alphabet, in the words of the
specification: the character is a letter of the alphabet or the upper-case
form of one. -/
def belongsCI (a : List Nat) (c : Nat) : Bool :=
  a.any (fun d => decide (c = d) || decide (c = upperForm d))

/-- A letter of the Latin or of the Cyrillic alphabet, in either case. -/
def isLetter (c : Nat) : Bool := belongsCI ALPHABET_EN c || belongsCI ALPHABET_RU c

/-- Upper-case letter of the two scripts with `Ё` (U+0401) counted, which lies
outside the range `А`..`Я` that `IsUpper` tests. -/
def upperLetter (c : Nat) : Bool := IsUpper c || decide (c = wch 'Ё')

/-! ## Closed forms of the loops, used in the proofs -/

/-- Properties shared by the two alphabets on which the proofs rest. -/
structure GoodAlphabet (a : List Nat) (n : Nat) : Prop where
  len : a.length = n
  pos : 0 < n
  small : n ≤ 33
  lower : ∀ c ∈ a, IsUpper c = false ∧ ToLower c = c
  fold : ∀ c, IsUpper c = true → ToLower c ∉ a
  find_charAt : ∀ p, p < n → find a (charAt a p) = p

/-- Effect of the case-restoring block on the character just appended. -/
def restoreChar (it x : Nat) : Nat := if IsUpper it then ToUpper x else x

/-- Character that one iteration of `Caesar::Encode` appends. -/
def Caesar.encodeChar (key it : Nat) : Nat :=
  if find ALPHABET_EN (ToLower it) ≠ npos then
    restoreChar it
      (charAt ALPHABET_EN (addSz (find ALPHABET_EN (ToLower it)) key % ALPHABET_EN_SIZE))
  else if find ALPHABET_RU (ToLower it) ≠ npos then
    restoreChar it
      (charAt ALPHABET_RU (addSz (find ALPHABET_RU (ToLower it)) key % ALPHABET_RU_SIZE))
  else it

/-- Character that one iteration of `Caesar::Decode` appends. -/
def Caesar.decodeChar (key it : Nat) : Nat :=
  if find ALPHABET_EN (ToLower it) ≠ npos then
    restoreChar it
      (charAt ALPHABET_EN
        (subSz (if key > find ALPHABET_EN (ToLower it)
            then addSz (find ALPHABET_EN (ToLower it)) ALPHABET_EN_SIZE
            else find ALPHABET_EN (ToLower it)) key % ALPHABET_EN_SIZE))
  else if find ALPHABET_RU (ToLower it) ≠ npos then
    restoreChar it
      (charAt ALPHABET_RU
        (subSz (if key > find ALPHABET_RU (ToLower it)
            then addSz (find ALPHABET_RU (ToLower it)) ALPHABET_RU_SIZE
            else find ALPHABET_RU (ToLower it)) key % ALPHABET_RU_SIZE))
  else it

/-- Key cursor after one iteration of `Vigenere::Encode` or `Vigenere::Decode`. -/
def Vigenere.nextKpos (a key : List Nat) (kpos it : Nat) : Nat :=
  if find a (ToLower it) = npos then kpos
  else if addSz kpos 1 ≥ key.length then 0 else addSz kpos 1

/-- Character that one iteration of `Vigenere::Encode` appends. -/
def Vigenere.encodeChar (a : List Nat) (n : Nat) (key : List Nat) (kpos it : Nat) : Nat :=
  if find a (ToLower it) = npos then it
  else restoreChar it
    (charAt a (addSz (find a (ToLower it)) (find a (charAt key kpos)) % n))

/-- Character that one iteration of `Vigenere::Decode` appends. -/
def Vigenere.decodeChar (a : List Nat) (n : Nat) (key : List Nat) (kpos it : Nat) : Nat :=
  if find a (ToLower it) = npos then it
  else restoreChar it
    (charAt a
      (subSz (if find a (charAt key kpos) > find a (ToLower it)
          then addSz (find a (ToLower it)) n
          else find a (ToLower it)) (find a (charAt key kpos)) % n))

/-- Output of the loop of `Vigenere::Encode` started with the cursor at `kpos`. -/
def Vigenere.encodeFrom (a : List Nat) (n : Nat) (key : List Nat) : Nat → List Nat → List Nat
  | _, [] => []
  | kpos, it :: rest =>
    Vigenere.encodeChar a n key kpos it ::
      Vigenere.encodeFrom a n key (Vigenere.nextKpos a key kpos it) rest

/-- Output of the loop of `Vigenere::Decode` started with the cursor at `kpos`. -/
def Vigenere.decodeFrom (a : List Nat) (n : Nat) (key : List Nat) : Nat → List Nat → List Nat
  | _, [] => []
  | kpos, it :: rest =>
    Vigenere.decodeChar a n key kpos it ::
      Vigenere.decodeFrom a n key (Vigenere.nextKpos a key kpos it) rest

/-- Key cursor when the loop started at `kpos` has read the whole input. -/
def Vigenere.cursorFrom (a key : List Nat) : Nat → List Nat → Nat
  | kpos, [] => kpos
  | kpos, it :: rest => Vigenere.cursorFrom a key (Vigenere.nextKpos a key kpos it) rest

/-! ## Code points, `find` and the alphabets -/

theorem wch_vals : wch 'A' = 65 ∧ wch 'Z' = 90 ∧ wch 'a' = 97 ∧ wch 'z' = 122 ∧
    wch 'А' = 1040 ∧ wch 'Я' = 1071 ∧ wch 'а' = 1072 ∧ wch 'я' = 1103 := by decide

theorem wch_yo : wch 'ё' = 1105 ∧ wch 'Ё' = 1025 := by decide

theorem UPPER_VALUE_eq : UPPER_VALUE = 4294967264 := by decide

theorem SIZE_T_eq : SIZE_T = 18446744073709551616 := by decide

theorem npos_eq : npos = 18446744073709551615 := by decide

theorem ALPHABET_EN_eq : ALPHABET_EN = [97, 98, 99, 100, 101, 102, 103, 104, 105, 106, 107, 108,
    109, 110, 111, 112, 113, 114, 115, 116, 117, 118, 119, 120, 121, 122] := by decide

theorem ALPHABET_RU_eq : ALPHABET_RU = [1072, 1073, 1074, 1075, 1076, 1077, 1105, 1078, 1079,
    1080, 1081, 1082, 1083, 1084, 1085, 1086, 1087, 1088, 1089, 1090, 1091, 1092, 1093, 1094,
    1095, 1096, 1097, 1098, 1099, 1100, 1101, 1102, 1103] := by decide

theorem mem_ALPHABET_EN (c : Nat) : c ∈ ALPHABET_EN ↔ 97 ≤ c ∧ c ≤ 122 := by
  rw [ALPHABET_EN_eq]
  simp only [List.mem_cons, List.mem_singleton, List.not_mem_nil, or_false]
  omega

theorem mem_ALPHABET_RU (c : Nat) :
    c ∈ ALPHABET_RU ↔ (1072 ≤ c ∧ c ≤ 1103) ∨ c = 1105 := by
  rw [ALPHABET_RU_eq]
  simp only [List.mem_cons, List.mem_singleton, List.not_mem_nil, or_false]
  omega

theorem IsUpper_iff (c : Nat) :
    IsUpper c = true ↔ (65 ≤ c ∧ c ≤ 90) ∨ (1040 ≤ c ∧ c ≤ 1071) := by
  obtain ⟨h1, h2, -, -, h5, h6, -, -⟩ := wch_vals
  simp [IsUpper, h1, h2, h5, h6]

theorem ToLower_of_upper (c : Nat) (h : IsUpper c = true) : ToLower c = c - 32 := by
  have h' := (IsUpper_iff c).1 h
  have hc : ((decide (c ≥ wch 'A') && decide (c ≤ wch 'Z')) ||
      (decide (c ≥ wch 'А') && decide (c ≤ wch 'Я'))) = true := h
  unfold ToLower
  rw [if_pos hc, UPPER_VALUE_eq]
  simp only [UINT32]
  omega

theorem ToLower_of_not_upper (c : Nat) (h : IsUpper c = false) : ToLower c = c := by
  have hc : ((decide (c ≥ wch 'A') && decide (c ≤ wch 'Z')) ||
      (decide (c ≥ wch 'А') && decide (c ≤ wch 'Я'))) = false := h
  unfold ToLower
  rw [hc]; rfl

theorem findFrom_of_not_mem (c : Nat) (a : List Nat) (i : Nat) (h : c ∉ a) :
    findFrom c a i = npos := by
  induction a generalizing i with
  | nil => rfl
  | cons x xs ih =>
    rw [List.mem_cons, not_or] at h
    have hx : ¬ x = c := fun e => h.1 e.symm
    simp only [findFrom, if_neg hx]
    exact ih (i + 1) h.2

theorem findFrom_of_mem (c : Nat) (a : List Nat) (i : Nat) (h : c ∈ a) :
    ∃ j, j < a.length ∧ findFrom c a i = i + j ∧ a.getD j 0 = c := by
  induction a generalizing i with
  | nil => simp at h
  | cons x xs ih =>
    by_cases hx : x = c
    · exact ⟨0, by simp, by simp [findFrom, hx], by simp [hx]⟩
    · have hm : c ∈ xs := by
        rcases List.mem_cons.1 h with e | e
        · exact absurd e.symm hx
        · exact e
      obtain ⟨j, hj, hf, hg⟩ := ih (i + 1) hm
      refine ⟨j + 1, by simp; omega, ?_, by simpa using hg⟩
      simp only [findFrom, if_neg hx, hf]
      omega

theorem find_of_not_mem (a : List Nat) (c : Nat) (h : c ∉ a) : find a c = npos :=
  findFrom_of_not_mem c a 0 h

theorem find_of_mem (a : List Nat) (c : Nat) (h : c ∈ a) :
    find a c < a.length ∧ charAt a (find a c) = c := by
  obtain ⟨j, hj, hf, hg⟩ := findFrom_of_mem c a 0 h
  have : find a c = j := by simpa [find] using hf
  rw [this]
  exact ⟨hj, hg⟩

theorem charAt_mem (a : List Nat) (p : Nat) (h : p < a.length) : charAt a p ∈ a := by
  unfold charAt
  rw [List.getD_eq_getElem a 0 h]
  exact List.getElem_mem h

theorem good_EN : GoodAlphabet ALPHABET_EN ALPHABET_EN_SIZE where
  len := by decide
  pos := by decide
  small := by decide
  lower := by decide
  fold := by
    intro c hc hm
    rw [ToLower_of_upper c hc, mem_ALPHABET_EN] at hm
    have := (IsUpper_iff c).1 hc
    omega
  find_charAt := by decide

theorem good_RU : GoodAlphabet ALPHABET_RU ALPHABET_RU_SIZE where
  len := by decide
  pos := by decide
  small := by decide
  lower := by decide
  fold := by
    intro c hc hm
    rw [ToLower_of_upper c hc, mem_ALPHABET_RU] at hm
    have := (IsUpper_iff c).1 hc
    omega
  find_charAt := by decide

/-! ## The loops in closed form -/

theorem restoreCase_append (it : Nat) (r : List Nat) (x : Nat) :
    restoreCase it (r ++ [x]) = r ++ [restoreChar it x] := by
  unfold restoreCase restoreChar
  by_cases h : IsUpper it = true
  · simp [h]
  · simp [h]

theorem foldl_append_singleton (step : List Nat → Nat → List Nat) (f : Nat → Nat)
    (h : ∀ r it, step r it = r ++ [f it]) (l r : List Nat) :
    l.foldl step r = r ++ l.map f := by
  induction l generalizing r with
  | nil => simp
  | cons x xs ih => simp [List.foldl_cons, h, ih]

theorem Caesar.shift_EncodeStep_eq (key : Nat) (r : List Nat) (it : Nat) :
    Caesar.EncodeStep key r it = r ++ [Caesar.encodeChar key it] := by
  unfold Caesar.EncodeStep Caesar.encodeChar
  by_cases h1 : find ALPHABET_EN (ToLower it) ≠ npos
  · simp only [h1, if_true, ne_eq, not_false_eq_true, restoreCase_append]
  · by_cases h2 : find ALPHABET_RU (ToLower it) ≠ npos
    · simp only [h1, h2, if_true, if_false, ne_eq, not_false_eq_true, restoreCase_append]
    · simp only [h1, h2, if_false]

theorem Caesar.shift_DecodeStep_eq (key : Nat) (r : List Nat) (it : Nat) :
    Caesar.DecodeStep key r it = r ++ [Caesar.decodeChar key it] := by
  unfold Caesar.DecodeStep Caesar.decodeChar
  by_cases h1 : find ALPHABET_EN (ToLower it) ≠ npos
  · simp only [h1, if_true, ne_eq, not_false_eq_true, restoreCase_append]
  · by_cases h2 : find ALPHABET_RU (ToLower it) ≠ npos
    · simp only [h1, h2, if_true, if_false, ne_eq, not_false_eq_true, restoreCase_append]
    · simp only [h1, h2, if_false]

theorem Caesar.Encode_eq_map (input : List Nat) (key : Nat) :
    Caesar.Encode input key = input.map (Caesar.encodeChar key) := by
  unfold Caesar.Encode
  cases input with
  | nil => rfl
  | cons x xs =>
    rw [foldl_append_singleton _ _ (Caesar.shift_EncodeStep_eq key)]
    simp

theorem Caesar.Decode_eq_map (input : List Nat) (key : Nat) :
    Caesar.Decode input key = input.map (Caesar.decodeChar key) := by
  unfold Caesar.Decode
  cases input with
  | nil => rfl
  | cons x xs =>
    rw [foldl_append_singleton _ _ (Caesar.shift_DecodeStep_eq key)]
    simp

theorem Vigenere.EncodeStep_eq (a : List Nat) (n : Nat) (key r : List Nat) (k it : Nat) :
    Vigenere.EncodeStep a n key (r, k) it =
      (r ++ [Vigenere.encodeChar a n key k it], Vigenere.nextKpos a key k it) := by
  unfold Vigenere.EncodeStep Vigenere.encodeChar Vigenere.nextKpos
  by_cases h : find a (ToLower it) = npos
  · simp only [h, if_true]
  · simp only [h, if_false, restoreCase_append]

theorem Vigenere.DecodeStep_eq (a : List Nat) (n : Nat) (key r : List Nat) (k it : Nat) :
    Vigenere.DecodeStep a n key (r, k) it =
      (r ++ [Vigenere.decodeChar a n key k it], Vigenere.nextKpos a key k it) := by
  unfold Vigenere.DecodeStep Vigenere.decodeChar Vigenere.nextKpos
  by_cases h : find a (ToLower it) = npos
  · simp only [h, if_true]
  · simp only [h, if_false, restoreCase_append]

theorem Vigenere.foldl_EncodeStep (a : List Nat) (n : Nat) (key l r : List Nat) (k : Nat) :
    l.foldl (Vigenere.EncodeStep a n key) (r, k) =
      (r ++ Vigenere.encodeFrom a n key k l, Vigenere.cursorFrom a key k l) := by
  induction l generalizing r k with
  | nil => simp [Vigenere.encodeFrom, Vigenere.cursorFrom]
  | cons x xs ih =>
    rw [List.foldl_cons, Vigenere.EncodeStep_eq, ih]
    simp [Vigenere.encodeFrom, Vigenere.cursorFrom]

theorem Vigenere.foldl_DecodeStep (a : List Nat) (n : Nat) (key l r : List Nat) (k : Nat) :
    l.foldl (Vigenere.DecodeStep a n key) (r, k) =
      (r ++ Vigenere.decodeFrom a n key k l, Vigenere.cursorFrom a key k l) := by
  induction l generalizing r k with
  | nil => simp [Vigenere.decodeFrom, Vigenere.cursorFrom]
  | cons x xs ih =>
    rw [List.foldl_cons, Vigenere.DecodeStep_eq, ih]
    simp [Vigenere.decodeFrom, Vigenere.cursorFrom]

theorem Vigenere.Encode_eq (language input key : List Nat) (hl : language ≠ [])
    (hk : key ≠ []) :
    Vigenere.Encode language input key =
      Vigenere.encodeFrom (Vigenere.selectAlphabet language) (Vigenere.selectSize language)
        key 0 input := by
  unfold Vigenere.Encode
  cases input with
  | nil => simp [Vigenere.encodeFrom]
  | cons x xs =>
    have h : (language.isEmpty || (x :: xs).isEmpty || key.isEmpty) = false := by
      simp [List.isEmpty_iff, hl, hk]
    rw [h]
    simp only [Bool.false_eq_true, if_false]
    rw [Vigenere.foldl_EncodeStep]
    simp

theorem Vigenere.Decode_eq (language input key : List Nat) (hl : language ≠ [])
    (hk : key ≠ []) :
    Vigenere.Decode language input key =
      Vigenere.decodeFrom (Vigenere.selectAlphabet language) (Vigenere.selectSize language)
        key 0 input := by
  unfold Vigenere.Decode
  cases input with
  | nil => simp [Vigenere.decodeFrom]
  | cons x xs =>
    have h : (language.isEmpty || (x :: xs).isEmpty || key.isEmpty) = false := by
      simp [List.isEmpty_iff, hl, hk]
    rw [h]
    simp only [Bool.false_eq_true, if_false]
    rw [Vigenere.foldl_DecodeStep]
    simp

theorem Vigenere.length_encodeFrom (a : List Nat) (n : Nat) (key l : List Nat) (k : Nat) :
    (Vigenere.encodeFrom a n key k l).length = l.length := by
  induction l generalizing k with
  | nil => rfl
  | cons x xs ih => simp [Vigenere.encodeFrom, ih]

theorem Vigenere.length_decodeFrom (a : List Nat) (n : Nat) (key l : List Nat) (k : Nat) :
    (Vigenere.decodeFrom a n key k l).length = l.length := by
  induction l generalizing k with
  | nil => rfl
  | cons x xs ih => simp [Vigenere.decodeFrom, ih]

theorem good_select (language : List Nat) :
    GoodAlphabet (Vigenere.selectAlphabet language) (Vigenere.selectSize language) := by
  unfold Vigenere.selectAlphabet Vigenere.selectSize
  by_cases h : language = wstr "en"
  · simp only [h, if_true]; exact good_EN
  · simp only [h, if_false]; exact good_RU

/-! ## What one iteration does to a character -/

theorem GoodAlphabet.of_mem {a : List Nat} {n : Nat} (h : GoodAlphabet a n) {c : Nat}
    (hc : c ∈ a) :
    IsUpper c = false ∧ ToLower c = c ∧ find a c < n ∧ charAt a (find a c) = c ∧
      find a c ≠ npos := by
  obtain ⟨h1, h2⟩ := h.lower c hc
  obtain ⟨h3, h4⟩ := find_of_mem a c hc
  rw [h.len] at h3
  refine ⟨h1, h2, h3, h4, ?_⟩
  have := h.small
  rw [npos_eq]
  omega

theorem GoodAlphabet.mem_of_lower_mem {a : List Nat} {n : Nat} (h : GoodAlphabet a n) {c : Nat}
    (hc : ToLower c ∈ a) : c ∈ a := by
  by_cases hu : IsUpper c = true
  · exact absurd hc (h.fold c hu)
  · rw [ToLower_of_not_upper c (by simpa using hu)] at hc
    exact hc

theorem GoodAlphabet.find_lower_of_not_mem {a : List Nat} {n : Nat} (h : GoodAlphabet a n)
    {c : Nat} (hc : c ∉ a) : find a (ToLower c) = npos :=
  find_of_not_mem a _ (fun hm => hc (h.mem_of_lower_mem hm))

theorem GoodAlphabet.charAt_mod_mem {a : List Nat} {n : Nat} (h : GoodAlphabet a n) (x : Nat) :
    charAt a (x % n) ∈ a := by
  apply Crypto.charAt_mem
  rw [h.len]
  exact Nat.mod_lt _ h.pos

theorem GoodAlphabet.restoreChar_eq {a : List Nat} {n : Nat} (h : GoodAlphabet a n) {c : Nat}
    (hc : c ∈ a) (x : Nat) : restoreChar c x = x := by
  unfold restoreChar
  rw [(h.of_mem hc).1]
  rfl

theorem not_mem_RU_of_mem_EN {c : Nat} (h : c ∈ ALPHABET_EN) : c ∉ ALPHABET_RU := by
  rw [mem_ALPHABET_EN] at h
  rw [mem_ALPHABET_RU]
  omega

theorem Caesar.encodeChar_of_EN (key : Nat) {c : Nat} (hc : c ∈ ALPHABET_EN) :
    Caesar.encodeChar key c =
      charAt ALPHABET_EN (addSz (find ALPHABET_EN c) key % ALPHABET_EN_SIZE) := by
  obtain ⟨-, h2, -, -, h5⟩ := good_EN.of_mem hc
  unfold Caesar.encodeChar
  rw [h2, if_pos h5, good_EN.restoreChar_eq hc]

theorem Caesar.encodeChar_of_RU (key : Nat) {c : Nat} (hc : c ∈ ALPHABET_RU) :
    Caesar.encodeChar key c =
      charAt ALPHABET_RU (addSz (find ALPHABET_RU c) key % ALPHABET_RU_SIZE) := by
  obtain ⟨-, h2, -, -, h5⟩ := good_RU.of_mem hc
  have hen : c ∉ ALPHABET_EN := fun h => not_mem_RU_of_mem_EN h hc
  have h1 : ¬ find ALPHABET_EN c ≠ npos := by
    simp [find_of_not_mem _ _ hen]
  unfold Caesar.encodeChar
  rw [h2, if_neg h1, if_pos h5, good_RU.restoreChar_eq hc]

theorem Caesar.shift_encodeChar_of_not_mem (key : Nat) {c : Nat} (h1 : c ∉ ALPHABET_EN)
    (h2 : c ∉ ALPHABET_RU) : Caesar.encodeChar key c = c := by
  unfold Caesar.encodeChar
  simp [good_EN.find_lower_of_not_mem h1, good_RU.find_lower_of_not_mem h2]

theorem Caesar.decodeChar_of_EN (key : Nat) {c : Nat} (hc : c ∈ ALPHABET_EN) :
    Caesar.decodeChar key c =
      charAt ALPHABET_EN
        (subSz (if key > find ALPHABET_EN c then addSz (find ALPHABET_EN c) ALPHABET_EN_SIZE
          else find ALPHABET_EN c) key % ALPHABET_EN_SIZE) := by
  obtain ⟨-, h2, -, -, h5⟩ := good_EN.of_mem hc
  unfold Caesar.decodeChar
  rw [h2, if_pos h5, good_EN.restoreChar_eq hc]

theorem Caesar.decodeChar_of_RU (key : Nat) {c : Nat} (hc : c ∈ ALPHABET_RU) :
    Caesar.decodeChar key c =
      charAt ALPHABET_RU
        (subSz (if key > find ALPHABET_RU c then addSz (find ALPHABET_RU c) ALPHABET_RU_SIZE
          else find ALPHABET_RU c) key % ALPHABET_RU_SIZE) := by
  obtain ⟨-, h2, -, -, h5⟩ := good_RU.of_mem hc
  have hen : c ∉ ALPHABET_EN := fun h => not_mem_RU_of_mem_EN h hc
  have h1 : ¬ find ALPHABET_EN c ≠ npos := by
    simp [find_of_not_mem _ _ hen]
  unfold Caesar.decodeChar
  rw [h2, if_neg h1, if_pos h5, good_RU.restoreChar_eq hc]

theorem Caesar.shift_decodeChar_of_not_mem (key : Nat) {c : Nat} (h1 : c ∉ ALPHABET_EN)
    (h2 : c ∉ ALPHABET_RU) : Caesar.decodeChar key c = c := by
  unfold Caesar.decodeChar
  simp [good_EN.find_lower_of_not_mem h1, good_RU.find_lower_of_not_mem h2]

/-- A character outside both alphabets is copied; a letter of an alphabet is
replaced by a letter of an alphabet. -/
theorem Caesar.encodeChar_shape (key c : Nat) :
    (c ∉ ALPHABET_EN ∧ c ∉ ALPHABET_RU ∧ Caesar.encodeChar key c = c) ∨
      ((c ∈ ALPHABET_EN ∨ c ∈ ALPHABET_RU) ∧
        (Caesar.encodeChar key c ∈ ALPHABET_EN ∨ Caesar.encodeChar key c ∈ ALPHABET_RU)) := by
  by_cases h1 : c ∈ ALPHABET_EN
  · right
    refine ⟨Or.inl h1, Or.inl ?_⟩
    rw [Caesar.encodeChar_of_EN key h1]
    exact good_EN.charAt_mod_mem _
  · by_cases h2 : c ∈ ALPHABET_RU
    · right
      refine ⟨Or.inr h2, Or.inr ?_⟩
      rw [Caesar.encodeChar_of_RU key h2]
      exact good_RU.charAt_mod_mem _
    · exact Or.inl ⟨h1, h2, Caesar.shift_encodeChar_of_not_mem key h1 h2⟩

theorem Caesar.decodeChar_shape (key c : Nat) :
    (c ∉ ALPHABET_EN ∧ c ∉ ALPHABET_RU ∧ Caesar.decodeChar key c = c) ∨
      ((c ∈ ALPHABET_EN ∨ c ∈ ALPHABET_RU) ∧
        (Caesar.decodeChar key c ∈ ALPHABET_EN ∨ Caesar.decodeChar key c ∈ ALPHABET_RU)) := by
  by_cases h1 : c ∈ ALPHABET_EN
  · right
    refine ⟨Or.inl h1, Or.inl ?_⟩
    rw [Caesar.decodeChar_of_EN key h1]
    exact good_EN.charAt_mod_mem _
  · by_cases h2 : c ∈ ALPHABET_RU
    · right
      refine ⟨Or.inr h2, Or.inr ?_⟩
      rw [Caesar.decodeChar_of_RU key h2]
      exact good_RU.charAt_mod_mem _
    · exact Or.inl ⟨h1, h2, Caesar.shift_decodeChar_of_not_mem key h1 h2⟩

theorem Vigenere.encodeChar_of_mem {a : List Nat} {n : Nat} (h : GoodAlphabet a n)
    (key : List Nat) (k : Nat) {c : Nat} (hc : c ∈ a) :
    Vigenere.encodeChar a n key k c =
      charAt a (addSz (find a c) (find a (charAt key k)) % n) := by
  obtain ⟨-, h2, -, -, h5⟩ := h.of_mem hc
  unfold Vigenere.encodeChar
  rw [h2, if_neg h5, h.restoreChar_eq hc]

theorem Vigenere.encodeChar_of_not_mem {a : List Nat} {n : Nat} (h : GoodAlphabet a n)
    (key : List Nat) (k : Nat) {c : Nat} (hc : c ∉ a) :
    Vigenere.encodeChar a n key k c = c := by
  unfold Vigenere.encodeChar
  rw [if_pos (h.find_lower_of_not_mem hc)]

theorem Vigenere.decodeChar_of_mem {a : List Nat} {n : Nat} (h : GoodAlphabet a n)
    (key : List Nat) (k : Nat) {c : Nat} (hc : c ∈ a) :
    Vigenere.decodeChar a n key k c =
      charAt a (subSz (if find a (charAt key k) > find a c then addSz (find a c) n
        else find a c) (find a (charAt key k)) % n) := by
  obtain ⟨-, h2, -, -, h5⟩ := h.of_mem hc
  unfold Vigenere.decodeChar
  rw [h2, if_neg h5, h.restoreChar_eq hc]

theorem Vigenere.decodeChar_of_not_mem {a : List Nat} {n : Nat} (h : GoodAlphabet a n)
    (key : List Nat) (k : Nat) {c : Nat} (hc : c ∉ a) :
    Vigenere.decodeChar a n key k c = c := by
  unfold Vigenere.decodeChar
  rw [if_pos (h.find_lower_of_not_mem hc)]

theorem Vigenere.nextKpos_of_not_mem {a : List Nat} {n : Nat} (h : GoodAlphabet a n)
    (key : List Nat) (k : Nat) {c : Nat} (hc : c ∉ a) :
    Vigenere.nextKpos a key k c = k := by
  unfold Vigenere.nextKpos
  rw [if_pos (h.find_lower_of_not_mem hc)]

theorem Vigenere.nextKpos_of_mem {a : List Nat} {n : Nat} (h : GoodAlphabet a n)
    (key : List Nat) (k : Nat) {c : Nat} (hc : c ∈ a) :
    Vigenere.nextKpos a key k c = if addSz k 1 ≥ key.length then 0 else addSz k 1 := by
  obtain ⟨-, h2, -, -, h5⟩ := h.of_mem hc
  unfold Vigenere.nextKpos
  rw [h2, if_neg h5]

theorem Vigenere.nextKpos_lt {a : List Nat} (key : List Nat) {k : Nat} (c : Nat)
    (hk : k < key.length) : Vigenere.nextKpos a key k c < key.length := by
  unfold Vigenere.nextKpos
  split
  · exact hk
  · split
    · omega
    · omega

/-! ## Keys accepted by `VerifyKey` and the round trip of the running-key loops -/

theorem Vigenere.VerifyKey_iff (language key : List Nat) :
    Vigenere.VerifyKey language key = true ↔
      language ≠ [] ∧ key ≠ [] ∧ ∀ c ∈ key, c ∈ Vigenere.selectAlphabet language := by
  have hg := good_select language
  unfold Vigenere.VerifyKey
  by_cases hl : language = []
  · simp [hl]
  · by_cases hk : key = []
    · simp [hk]
    · have h : (language.isEmpty || key.isEmpty) = false := by
        simp [List.isEmpty_iff, hl, hk]
      rw [h]
      simp only [Bool.false_eq_true, if_false, List.all_eq_true, decide_eq_true_eq]
      constructor
      · intro hall
        refine ⟨hl, hk, fun c hc => ?_⟩
        by_contra hn
        exact hall c hc (find_of_not_mem _ _ hn)
      · rintro ⟨-, -, hall⟩ c hc
        exact (hg.of_mem (hall c hc)).2.2.2.2

theorem Vigenere.key_find_lt {a : List Nat} {n : Nat} (h : GoodAlphabet a n) {key : List Nat}
    (hkey : ∀ c ∈ key, c ∈ a) {k : Nat} (hk : k < key.length) :
    find a (charAt key k) < n :=
  (h.of_mem (hkey _ (charAt_mem key k hk))).2.2.1

theorem mod_of_lt_two_mul {x n : Nat} (h : x < 2 * n) :
    (x < n ∧ x % n = x) ∨ (n ≤ x ∧ x % n = x - n) := by
  by_cases hx : x < n
  · exact Or.inl ⟨hx, Nat.mod_eq_of_lt hx⟩
  · right
    refine ⟨by omega, ?_⟩
    rw [Nat.mod_eq_sub_mod (by omega)]
    exact Nat.mod_eq_of_lt (by omega)

/-- The index computed by the decoding step undoes the index computed by the
encoding step when the key index is below the alphabet size. -/
theorem decode_index_encode_index {n p kk : Nat} (hn : n ≤ 33) (hp : p < n) (hk : kk < n) :
    addSz p kk % n < n ∧
      subSz (if kk > addSz p kk % n then addSz (addSz p kk % n) n else addSz p kk % n) kk % n
        = p := by
  have hadd : addSz p kk = p + kk := by
    unfold addSz
    rw [SIZE_T_eq]
    omega
  rw [hadd]
  have hq := mod_of_lt_two_mul (show p + kk < 2 * n by omega)
  generalize (p + kk) % n = q at hq
  have hq' : q < n := by omega
  refine ⟨hq', ?_⟩
  have hsub : subSz (if kk > q then addSz q n else q) kk = p := by
    unfold subSz addSz
    rw [SIZE_T_eq]
    split <;> omega
  rw [hsub]
  exact Nat.mod_eq_of_lt hp

theorem Vigenere.encodeChar_mem_iff {a : List Nat} {n : Nat} (h : GoodAlphabet a n)
    (key : List Nat) (k c : Nat) : Vigenere.encodeChar a n key k c ∈ a ↔ c ∈ a := by
  by_cases hc : c ∈ a
  · rw [Vigenere.encodeChar_of_mem h key k hc]
    exact ⟨fun _ => hc, fun _ => h.charAt_mod_mem _⟩
  · rw [Vigenere.encodeChar_of_not_mem h key k hc]

theorem Vigenere.decodeChar_mem_iff {a : List Nat} {n : Nat} (h : GoodAlphabet a n)
    (key : List Nat) (k c : Nat) : Vigenere.decodeChar a n key k c ∈ a ↔ c ∈ a := by
  by_cases hc : c ∈ a
  · rw [Vigenere.decodeChar_of_mem h key k hc]
    exact ⟨fun _ => hc, fun _ => h.charAt_mod_mem _⟩
  · rw [Vigenere.decodeChar_of_not_mem h key k hc]

theorem Vigenere.nextKpos_congr {a : List Nat} {n : Nat} (h : GoodAlphabet a n)
    (key : List Nat) (k : Nat) {c d : Nat} (hcd : d ∈ a ↔ c ∈ a) :
    Vigenere.nextKpos a key k d = Vigenere.nextKpos a key k c := by
  by_cases hc : c ∈ a
  · rw [Vigenere.nextKpos_of_mem h key k hc, Vigenere.nextKpos_of_mem h key k (hcd.2 hc)]
  · rw [Vigenere.nextKpos_of_not_mem h key k hc,
      Vigenere.nextKpos_of_not_mem h key k (fun hd => hc (hcd.1 hd))]

theorem Vigenere.decodeChar_encodeChar {a : List Nat} {n : Nat} (h : GoodAlphabet a n)
    {key : List Nat} (hkey : ∀ c ∈ key, c ∈ a) {k : Nat} (hk : k < key.length) (c : Nat) :
    Vigenere.decodeChar a n key k (Vigenere.encodeChar a n key k c) = c := by
  by_cases hc : c ∈ a
  · obtain ⟨-, -, hp, hcp, -⟩ := h.of_mem hc
    have hkk := Vigenere.key_find_lt h hkey hk
    obtain ⟨hq, hback⟩ := decode_index_encode_index h.small hp hkk
    have hmem : Vigenere.encodeChar a n key k c ∈ a :=
      (Vigenere.encodeChar_mem_iff h key k c).2 hc
    rw [Vigenere.decodeChar_of_mem h key k hmem, Vigenere.encodeChar_of_mem h key k hc,
      h.find_charAt _ hq, hback, hcp]
  · rw [Vigenere.encodeChar_of_not_mem h key k hc, Vigenere.decodeChar_of_not_mem h key k hc]

theorem Vigenere.decodeFrom_encodeFrom {a : List Nat} {n : Nat} (h : GoodAlphabet a n)
    {key : List Nat} (hkey : ∀ c ∈ key, c ∈ a) (l : List Nat) {k : Nat}
    (hk : k < key.length) :
    Vigenere.decodeFrom a n key k (Vigenere.encodeFrom a n key k l) = l := by
  induction l generalizing k with
  | nil => rfl
  | cons x xs ih =>
    simp only [Vigenere.encodeFrom, Vigenere.decodeFrom]
    rw [Vigenere.decodeChar_encodeChar h hkey hk,
      Vigenere.nextKpos_congr h key k (Vigenere.encodeChar_mem_iff h key k x),
      ih (Vigenere.nextKpos_lt key x hk)]

theorem Vigenere.cursorFrom_encodeFrom {a : List Nat} {n : Nat} (h : GoodAlphabet a n)
    (key l : List Nat) (k : Nat) :
    Vigenere.cursorFrom a key k (Vigenere.encodeFrom a n key k l) =
      Vigenere.cursorFrom a key k l := by
  induction l generalizing k with
  | nil => rfl
  | cons x xs ih =>
    simp only [Vigenere.encodeFrom, Vigenere.cursorFrom]
    rw [Vigenere.nextKpos_congr h key k (Vigenere.encodeChar_mem_iff h key k x), ih]

theorem Vigenere.encodeFrom_take (a : List Nat) (n : Nat) (key l : List Nat) (k i : Nat) :
    (Vigenere.encodeFrom a n key k l).take i = Vigenere.encodeFrom a n key k (l.take i) := by
  induction l generalizing k i with
  | nil => simp [Vigenere.encodeFrom]
  | cons x xs ih =>
    cases i with
    | zero => simp [Vigenere.encodeFrom]
    | succ j => simp [Vigenere.encodeFrom, ih]

/-! ## The classical formula of the running-key cipher on lower-case text -/

theorem charAt_cons_succ (x : Nat) (xs : List Nat) (i : Nat) :
    charAt (x :: xs) (i + 1) = charAt xs i := by
  simp [charAt]

theorem charAt_cons_zero (x : Nat) (xs : List Nat) : charAt (x :: xs) 0 = x := by
  simp [charAt]

theorem Vigenere.nextKpos_mod {a : List Nat} {n : Nat} (h : GoodAlphabet a n) {key : List Nat}
    (hk : key ≠ []) (hlen : key.length < SIZE_T) (j : Nat) {c : Nat} (hc : c ∈ a) :
    Vigenere.nextKpos a key (j % key.length) c = (j + 1) % key.length := by
  have hpos : 0 < key.length := List.length_pos.2 hk
  have hr : j % key.length < key.length := Nat.mod_lt _ hpos
  have hmod : (j + 1) % key.length = (j % key.length + 1) % key.length :=
    (Nat.mod_add_mod j key.length 1).symm
  rw [Vigenere.nextKpos_of_mem h key _ hc, hmod]
  generalize j % key.length = r at hr
  have hadd : addSz r 1 = r + 1 := by
    unfold addSz
    rw [SIZE_T_eq] at hlen ⊢
    omega
  rw [hadd]
  by_cases he : r + 1 = key.length
  · rw [he, Nat.mod_self]
    simp
  · rw [Nat.mod_eq_of_lt (by omega), if_neg (by omega)]

theorem Vigenere.charAt_encodeFrom_of_mem {a : List Nat} {n : Nat} (h : GoodAlphabet a n)
    {key : List Nat} (hk : key ≠ []) (hlen : key.length < SIZE_T)
    (hkey : ∀ c ∈ key, c ∈ a) (l : List Nat) (hl : ∀ c ∈ l, c ∈ a) (j i : Nat)
    (hi : i < l.length) :
    charAt (Vigenere.encodeFrom a n key (j % key.length) l) i =
      charAt a ((find a (charAt l i) + find a (charAt key ((j + i) % key.length))) % n) := by
  induction l generalizing j i with
  | nil => simp at hi
  | cons x xs ih =>
    have hx : x ∈ a := hl x (List.mem_cons_self _ _)
    have hxs : ∀ c ∈ xs, c ∈ a := fun c hc => hl c (List.mem_cons_of_mem _ hc)
    have hpos : 0 < key.length := List.length_pos.2 hk
    simp only [Vigenere.encodeFrom]
    cases i with
    | zero =>
      rw [charAt_cons_zero, charAt_cons_zero, Vigenere.encodeChar_of_mem h key _ hx,
        Nat.add_zero]
      have hp := (h.of_mem hx).2.2.1
      have hkk := Vigenere.key_find_lt h hkey (Nat.mod_lt j hpos)
      have hsmall := h.small
      have hadd : addSz (find a x) (find a (charAt key (j % key.length))) =
          find a x + find a (charAt key (j % key.length)) := by
        unfold addSz
        rw [SIZE_T_eq]
        omega
      rw [hadd]
    | succ i =>
      rw [charAt_cons_succ, charAt_cons_succ, Vigenere.nextKpos_mod h hk hlen j hx,
        ih hxs (j + 1) i (by simpa using hi)]
      have : j + 1 + i = j + (i + 1) := by omega
      rw [this]

/-! ## Lengths, case and characters outside the alphabets -/

theorem charAt_map (f : Nat → Nat) (l : List Nat) (i : Nat) (hi : i < l.length) :
    charAt (l.map f) i = f (charAt l i) := by
  unfold charAt
  rw [List.getD_eq_getElem _ 0 (by simpa using hi), List.getD_eq_getElem _ 0 hi,
    List.getElem_map]

theorem upper_false_of_mem {U : Nat → Bool} (hU : U = IsUpper ∨ U = upperLetter) {c : Nat}
    (hc : c ∈ ALPHABET_EN ∨ c ∈ ALPHABET_RU) : U c = false := by
  have h1 : IsUpper c = false := by
    rcases hc with h | h
    · exact (good_EN.of_mem h).1
    · exact (good_RU.of_mem h).1
  have h2 : c ≠ wch 'Ё' := by
    rw [wch_yo.2]
    rcases hc with h | h
    · rw [mem_ALPHABET_EN] at h; omega
    · rw [mem_ALPHABET_RU] at h; omega
  rcases hU with e | e
  · rw [e, h1]
  · rw [e]
    simp [upperLetter, h1, h2]

theorem select_subset (language : List Nat) {c : Nat}
    (hc : c ∈ Vigenere.selectAlphabet language) : c ∈ ALPHABET_EN ∨ c ∈ ALPHABET_RU := by
  unfold Vigenere.selectAlphabet at hc
  split at hc
  · exact Or.inl hc
  · exact Or.inr hc

theorem Caesar.upper_encodeChar {U : Nat → Bool} (hU : U = IsUpper ∨ U = upperLetter)
    (key c : Nat) : U (Caesar.encodeChar key c) = U c := by
  rcases Caesar.encodeChar_shape key c with ⟨-, -, h⟩ | ⟨h1, h2⟩
  · rw [h]
  · rw [upper_false_of_mem hU h1, upper_false_of_mem hU h2]

theorem Caesar.upper_decodeChar {U : Nat → Bool} (hU : U = IsUpper ∨ U = upperLetter)
    (key c : Nat) : U (Caesar.decodeChar key c) = U c := by
  rcases Caesar.decodeChar_shape key c with ⟨-, -, h⟩ | ⟨h1, h2⟩
  · rw [h]
  · rw [upper_false_of_mem hU h1, upper_false_of_mem hU h2]

theorem Vigenere.upper_encodeFrom {a : List Nat} {n : Nat} (h : GoodAlphabet a n)
    {U : Nat → Bool} (hU : ∀ c ∈ a, U c = false) (key l : List Nat) (k i : Nat)
    (hi : i < l.length) :
    U (charAt (Vigenere.encodeFrom a n key k l) i) = U (charAt l i) := by
  induction l generalizing k i with
  | nil => simp at hi
  | cons x xs ih =>
    simp only [Vigenere.encodeFrom]
    cases i with
    | zero =>
      rw [charAt_cons_zero, charAt_cons_zero]
      by_cases hx : x ∈ a
      · rw [hU _ ((Vigenere.encodeChar_mem_iff h key k x).2 hx), hU _ hx]
      · rw [Vigenere.encodeChar_of_not_mem h key k hx]
    | succ i =>
      rw [charAt_cons_succ, charAt_cons_succ]
      exact ih _ i (by simpa using hi)

theorem Vigenere.upper_decodeFrom {a : List Nat} {n : Nat} (h : GoodAlphabet a n)
    {U : Nat → Bool} (hU : ∀ c ∈ a, U c = false) (key l : List Nat) (k i : Nat)
    (hi : i < l.length) :
    U (charAt (Vigenere.decodeFrom a n key k l) i) = U (charAt l i) := by
  induction l generalizing k i with
  | nil => simp at hi
  | cons x xs ih =>
    simp only [Vigenere.decodeFrom]
    cases i with
    | zero =>
      rw [charAt_cons_zero, charAt_cons_zero]
      by_cases hx : x ∈ a
      · rw [hU _ ((Vigenere.decodeChar_mem_iff h key k x).2 hx), hU _ hx]
      · rw [Vigenere.decodeChar_of_not_mem h key k hx]
    | succ i =>
      rw [charAt_cons_succ, charAt_cons_succ]
      exact ih _ i (by simpa using hi)

theorem not_mem_of_belongsCI_false {a : List Nat} {c : Nat} (h : belongsCI a c = false) :
    c ∉ a := by
  intro hc
  unfold belongsCI at h
  rw [List.any_eq_false] at h
  exact h c hc (by simp)

theorem not_mem_of_isLetter_false {c : Nat} (h : isLetter c = false) :
    c ∉ ALPHABET_EN ∧ c ∉ ALPHABET_RU := by
  unfold isLetter at h
  rw [Bool.or_eq_false_iff] at h
  exact ⟨not_mem_of_belongsCI_false h.1, not_mem_of_belongsCI_false h.2⟩

theorem Vigenere.encodeFrom_append (a : List Nat) (n : Nat) (key xs l : List Nat) (k : Nat) :
    Vigenere.encodeFrom a n key k (xs ++ l) =
      Vigenere.encodeFrom a n key k xs ++
        Vigenere.encodeFrom a n key (Vigenere.cursorFrom a key k xs) l := by
  induction xs generalizing k with
  | nil => simp [Vigenere.encodeFrom, Vigenere.cursorFrom]
  | cons x xs ih => simp [Vigenere.encodeFrom, Vigenere.cursorFrom, ih]

theorem Vigenere.decodeFrom_append (a : List Nat) (n : Nat) (key xs l : List Nat) (k : Nat) :
    Vigenere.decodeFrom a n key k (xs ++ l) =
      Vigenere.decodeFrom a n key k xs ++
        Vigenere.decodeFrom a n key (Vigenere.cursorFrom a key k xs) l := by
  induction xs generalizing k with
  | nil => simp [Vigenere.decodeFrom, Vigenere.cursorFrom]
  | cons x xs ih => simp [Vigenere.decodeFrom, Vigenere.cursorFrom, ih]

theorem insert_at_length (A B : List Nat) (c : Nat) (m : Nat) (h : A.length = m) :
    A ++ c :: B = (A ++ B).take m ++ c :: (A ++ B).drop m := by
  rw [List.take_left' h, List.drop_left' h]

/-! ## The shift cipher on letters and its round trip for keys up to 26 -/

/-- The index computed by the decoding step undoes the index computed by the
encoding step when the key does not exceed the alphabet size. -/
theorem shift_index_roundtrip {n p k : Nat} (hn : n ≤ 33) (hp : p < n) (hk : k ≤ n) :
    addSz p k % n < n ∧
      subSz (if k > addSz p k % n then addSz (addSz p k % n) n else addSz p k % n) k % n
        = p := by
  have hadd : addSz p k = p + k := by
    unfold addSz
    rw [SIZE_T_eq]
    omega
  rw [hadd]
  have hq := mod_of_lt_two_mul (show p + k < 2 * n by omega)
  generalize (p + k) % n = q at hq
  have hq' : q < n := by omega
  refine ⟨hq', ?_⟩
  have hsub : subSz (if k > q then addSz q n else q) k = p := by
    unfold subSz addSz
    rw [SIZE_T_eq]
    split <;> omega
  rw [hsub]
  exact Nat.mod_eq_of_lt hp

theorem Caesar.shift_decodeChar_encodeChar {k : Nat} (hk : k ≤ 26) (c : Nat) :
    Caesar.decodeChar k (Caesar.encodeChar k c) = c := by
  by_cases h1 : c ∈ ALPHABET_EN
  · obtain ⟨-, -, hp, hcp, -⟩ := good_EN.of_mem h1
    obtain ⟨hq, hback⟩ := shift_index_roundtrip good_EN.small hp
      (show k ≤ ALPHABET_EN_SIZE from hk)
    rw [Caesar.encodeChar_of_EN k h1, Caesar.decodeChar_of_EN k (good_EN.charAt_mod_mem _),
      good_EN.find_charAt _ hq, hback, hcp]
  · by_cases h2 : c ∈ ALPHABET_RU
    · obtain ⟨-, -, hp, hcp, -⟩ := good_RU.of_mem h2
      obtain ⟨hq, hback⟩ := shift_index_roundtrip good_RU.small hp
        (show k ≤ ALPHABET_RU_SIZE from Nat.le_trans hk (by decide))
      rw [Caesar.encodeChar_of_RU k h2, Caesar.decodeChar_of_RU k (good_RU.charAt_mod_mem _),
        good_RU.find_charAt _ hq, hback, hcp]
    · rw [Caesar.shift_encodeChar_of_not_mem k h1 h2,
        Caesar.shift_decodeChar_of_not_mem k h1 h2]

/-! ## Upper-case characters are never located in an alphabet -/

theorem GoodAlphabet.not_mem_of_upper {a : List Nat} {n : Nat} (h : GoodAlphabet a n) {c : Nat}
    (hc : IsUpper c = true) : c ∉ a := by
  intro hm
  rw [(h.of_mem hm).1] at hc
  exact Bool.false_ne_true hc

theorem GoodAlphabet.find_lower_of_upper {a : List Nat} {n : Nat} (h : GoodAlphabet a n)
    {c : Nat} (hc : IsUpper c = true) : find a (ToLower c) = npos :=
  find_of_not_mem a _ (h.fold c hc)

theorem Vigenere.charAt_encodeFrom_of_not_mem {a : List Nat} {n : Nat} (h : GoodAlphabet a n)
    (key l : List Nat) (k i : Nat) (hc : charAt l i ∉ a) (hi : i < l.length) :
    charAt (Vigenere.encodeFrom a n key k l) i = charAt l i := by
  induction l generalizing k i with
  | nil => simp at hi
  | cons x xs ih =>
    simp only [Vigenere.encodeFrom]
    cases i with
    | zero =>
      rw [charAt_cons_zero] at hc
      rw [charAt_cons_zero, charAt_cons_zero, Vigenere.encodeChar_of_not_mem h key k hc]
    | succ i =>
      rw [charAt_cons_succ] at hc
      rw [charAt_cons_succ, charAt_cons_succ]
      exact ih _ i hc (by simpa using hi)

theorem Vigenere.charAt_decodeFrom_of_not_mem {a : List Nat} {n : Nat} (h : GoodAlphabet a n)
    (key l : List Nat) (k i : Nat) (hc : charAt l i ∉ a) (hi : i < l.length) :
    charAt (Vigenere.decodeFrom a n key k l) i = charAt l i := by
  induction l generalizing k i with
  | nil => simp at hi
  | cons x xs ih =>
    simp only [Vigenere.decodeFrom]
    cases i with
    | zero =>
      rw [charAt_cons_zero] at hc
      rw [charAt_cons_zero, charAt_cons_zero, Vigenere.decodeChar_of_not_mem h key k hc]
    | succ i =>
      rw [charAt_cons_succ] at hc
      rw [charAt_cons_succ, charAt_cons_succ]
      exact ih _ i hc (by simpa using hi)

theorem select_of_ne_en {t : List Nat} (h : t ≠ wstr "en") :
    Vigenere.selectAlphabet t = ALPHABET_RU ∧ Vigenere.selectSize t = ALPHABET_RU_SIZE := by
  unfold Vigenere.selectAlphabet Vigenere.selectSize
  simp [h]

/-! ## The claims -/

/-- C1 (the code breaks the claim): with the valid key 27 the message `z` is
encoded to `a`, and `a` is decoded to `p`: the round trip does not give back `z`. -/
theorem Caesar.roundtrip_lost_at_key_27 :
    Caesar.Encode (wstr "z") 27 = wstr "a" ∧
      Caesar.Decode (Caesar.Encode (wstr "z") 27) 27 = wstr "p" ∧
      Caesar.Decode (Caesar.Encode (wstr "z") 27) 27 ≠ wstr "z" := by
  decide

/-- C2: for a tag `en` or `ru` and a key accepted by `VerifyKey`, decoding the
encoded message gives the message back, and after every prefix of the
ciphertext the key cursor of `Decode` equals the key cursor of `Encode` after
the prefix of the message of the same length. -/
theorem Vigenere.decode_encode (language key m : List Nat)
    (hl : language = wstr "en" ∨ language = wstr "ru")
    (hv : Vigenere.VerifyKey language key = true) :
    Vigenere.Decode language (Vigenere.Encode language m key) key = m ∧
      ∀ i : Nat,
        (((Vigenere.Encode language m key).take i).foldl
            (Vigenere.DecodeStep (Vigenere.selectAlphabet language)
              (Vigenere.selectSize language) key) ([], 0)).2 =
          ((m.take i).foldl
            (Vigenere.EncodeStep (Vigenere.selectAlphabet language)
              (Vigenere.selectSize language) key) ([], 0)).2 := by
  have hne : language ≠ [] := by
    rcases hl with e | e <;> (rw [e]; decide)
  obtain ⟨-, hk, hkey⟩ := (Vigenere.VerifyKey_iff language key).1 hv
  have hg := good_select language
  have hpos : 0 < key.length := List.length_pos.2 hk
  constructor
  · rw [Vigenere.Encode_eq language m key hne hk, Vigenere.Decode_eq language _ key hne hk]
    exact Vigenere.decodeFrom_encodeFrom hg hkey m hpos
  · intro i
    rw [Vigenere.Encode_eq language m key hne hk, Vigenere.foldl_DecodeStep,
      Vigenere.foldl_EncodeStep, Vigenere.encodeFrom_take]
    exact Vigenere.cursorFrom_encodeFrom hg key _ 0

theorem Vigenere.decode_encode_witness :
    Vigenere.VerifyKey (wstr "ru") (wstr "ключ") = true ∧
      Vigenere.Decode (wstr "ru") (Vigenere.Encode (wstr "ru") (wstr "Привет, мир!") (wstr "ключ"))
        (wstr "ключ") = wstr "Привет, мир!" :=
  ⟨by decide,
    (Vigenere.decode_encode (wstr "ru") (wstr "ключ") (wstr "Привет, мир!") (Or.inr rfl)
      (by decide)).1⟩

/-- C3 (the code breaks the claim): upper-case letters are not shifted.
`Encode("Z", 1)` is `Z`, not `A`, and `Encode("Hello, World!", 3)` is
`Hhoor, Wruog!`, not `Khoor, Zruog!`; the lower-case `z` does become `a`. -/
theorem Caesar.Encode_leaves_upper_case :
    Caesar.Encode (wstr "Z") 1 = wstr "Z" ∧
      Caesar.Encode (wstr "Hello, World!") 3 = wstr "Hhoor, Wruog!" ∧
      Caesar.Encode (wstr "z") 1 = wstr "a" ∧
      ToLower (wch 'Z') = wch ':' := by
  decide

/-- C4 (the code breaks the claim): with the key `lemon`, which `VerifyKey`
accepts, `Encode("en", "ATTACKATDAWN", "lemon")` is the message unchanged, not
`LXFOPVEFRNHR`: `ToLower('A')` is `!`, no upper-case letter of the message is
found in the alphabet and each is copied. The lower-case message
`attackatdawn` does become `lxfopvefrnhr` under the same key. -/
theorem Vigenere.Encode_leaves_upper_case_message :
    Vigenere.VerifyKey (wstr "en") (wstr "lemon") = true ∧
      Vigenere.Encode (wstr "en") (wstr "ATTACKATDAWN") (wstr "lemon") = wstr "ATTACKATDAWN" ∧
      Vigenere.Encode (wstr "en") (wstr "ATTACKATDAWN") (wstr "lemon") ≠ wstr "LXFOPVEFRNHR" ∧
      Vigenere.Encode (wstr "en") (wstr "attackatdawn") (wstr "lemon") = wstr "lxfopvefrnhr" ∧
      ToLower (wch 'A') = wch '!' ∧ find ALPHABET_EN (ToLower (wch 'A')) = npos := by
  decide

/-- C5 as stated is false: the key `KEY` is non-empty and each of its
characters belongs case-insensitively to the Latin alphabet, yet `VerifyKey`
rejects it. -/
theorem Vigenere.VerifyKey_rejects_upper_case :
    Vigenere.VerifyKey (wstr "en") (wstr "KEY") = false ∧
      wstr "KEY" ≠ [] ∧ (∀ c ∈ wstr "KEY", belongsCI ALPHABET_EN c = true) ∧
      ¬ (Vigenere.VerifyKey (wstr "en") (wstr "KEY") = true ↔
        (wstr "KEY" ≠ [] ∧ ∀ c ∈ wstr "KEY", belongsCI ALPHABET_EN c = true)) := by
  decide

/-- C5 amended: `VerifyKey` returns true exactly when the key is non-empty and
every character of the key is itself a character of the alphabet chosen by the
tag, that is, a lower-case letter of it (the key is compared as it is, without
case folding); in particular `VerifyKey("en", "key")` is true. -/
theorem Vigenere.VerifyKey_exact (key : List Nat) :
    (Vigenere.VerifyKey (wstr "en") key = true ↔ key ≠ [] ∧ ∀ c ∈ key, c ∈ ALPHABET_EN) ∧
      (Vigenere.VerifyKey (wstr "ru") key = true ↔ key ≠ [] ∧ ∀ c ∈ key, c ∈ ALPHABET_RU) ∧
      Vigenere.VerifyKey (wstr "en") (wstr "key") = true := by
  have h1 : Vigenere.selectAlphabet (wstr "en") = ALPHABET_EN := by
    simp [Vigenere.selectAlphabet]
  have h2 : Vigenere.selectAlphabet (wstr "ru") = ALPHABET_RU := by
    have : wstr "ru" ≠ wstr "en" := by decide
    simp [Vigenere.selectAlphabet, this]
  have e1 : wstr "en" ≠ [] := by decide
  have e2 : wstr "ru" ≠ [] := by decide
  refine ⟨?_, ?_, by decide⟩
  · rw [Vigenere.VerifyKey_iff, h1]
    exact ⟨fun h => ⟨h.2.1, h.2.2⟩, fun h => ⟨e1, h.1, h.2⟩⟩
  · rw [Vigenere.VerifyKey_iff, h2]
    exact ⟨fun h => ⟨h.2.1, h.2.2⟩, fun h => ⟨e2, h.1, h.2⟩⟩

/-- C6 (the code breaks the claim): with the valid key 27 the letter `a`, at
position 0, is decoded to `p`, at position 15, while position `(0 - 27) mod 26`
is 25, the letter `z`: after the single addition of 26 the difference `26 - 27`
wraps around to `npos`, and `npos mod 26` is 15. With key 1 the result is `z`. -/
theorem Caesar.Decode_wraps_at_key_27 :
    Caesar.Decode (wstr "a") 27 = wstr "p" ∧
      find ALPHABET_EN (wch 'a') = 0 ∧
      charAt ALPHABET_EN (((0 : Int) - 27) % 26).toNat = wch 'z' ∧
      subSz (addSz 0 ALPHABET_EN_SIZE) 27 = npos ∧
      charAt ALPHABET_EN (npos % ALPHABET_EN_SIZE) = wch 'p' ∧
      Caesar.Decode (wstr "a") 1 = wstr "z" := by
  decide

/-- C7: `Caesar::Encode` and `Caesar::Decode` keep the length of the message for
every key, and so do `Vigenere::Encode` and `Vigenere::Decode` for every
non-empty tag and non-empty key. -/
theorem length_preserved (m : List Nat) (k : Nat) (tag key : List Nat) (ht : tag ≠ [])
    (hk : key ≠ []) :
    (Caesar.Encode m k).length = m.length ∧ (Caesar.Decode m k).length = m.length ∧
      (Vigenere.Encode tag m key).length = m.length ∧
      (Vigenere.Decode tag m key).length = m.length := by
  refine ⟨?_, ?_, ?_, ?_⟩
  · rw [Caesar.Encode_eq_map, List.length_map]
  · rw [Caesar.Decode_eq_map, List.length_map]
  · rw [Vigenere.Encode_eq tag m key ht hk, Vigenere.length_encodeFrom]
  · rw [Vigenere.Decode_eq tag m key ht hk, Vigenere.length_decodeFrom]

theorem length_preserved_witness :
    (Caesar.Encode (wstr "Hi! 123") 5).length = 7 ∧
      (Caesar.Decode (wstr "Hi! 123") 5).length = 7 ∧
      (Vigenere.Encode (wstr "xx") (wstr "Hi! 123") (wstr "?")).length = 7 ∧
      (Vigenere.Decode (wstr "xx") (wstr "Hi! 123") (wstr "?")).length = 7 :=
  length_preserved (wstr "Hi! 123") 5 (wstr "xx") (wstr "?") (by decide) (by decide)

/-- C8: at every position `i` of the message, the character at `i` of
`Caesar::Encode` and of `Caesar::Decode` (every key, so every key between 1 and
33), and of `Vigenere::Encode` and of `Vigenere::Decode` (tag `en` or `ru`, key
accepted by `VerifyKey`), is an upper-case letter if and only if the character
at `i` of the message is one. Upper-case is read as `IsUpper` or as `IsUpper`
with `Ё`. -/
theorem case_preserved (U : Nat → Bool) (hU : U = IsUpper ∨ U = upperLetter)
    (m : List Nat) (k : Nat) (tag key : List Nat)
    (ht : tag = wstr "en" ∨ tag = wstr "ru") (hv : Vigenere.VerifyKey tag key = true)
    (i : Nat) (hi : i < m.length) :
    U (charAt (Caesar.Encode m k) i) = U (charAt m i) ∧
      U (charAt (Caesar.Decode m k) i) = U (charAt m i) ∧
      U (charAt (Vigenere.Encode tag m key) i) = U (charAt m i) ∧
      U (charAt (Vigenere.Decode tag m key) i) = U (charAt m i) := by
  have hne : tag ≠ [] := by
    rcases ht with e | e <;> (rw [e]; decide)
  obtain ⟨-, hk, -⟩ := (Vigenere.VerifyKey_iff tag key).1 hv
  have hg := good_select tag
  have hUa : ∀ c ∈ Vigenere.selectAlphabet tag, U c = false :=
    fun c hc => upper_false_of_mem hU (select_subset tag hc)
  refine ⟨?_, ?_, ?_, ?_⟩
  · rw [Caesar.Encode_eq_map, charAt_map _ _ _ hi]
    exact Caesar.upper_encodeChar hU k _
  · rw [Caesar.Decode_eq_map, charAt_map _ _ _ hi]
    exact Caesar.upper_decodeChar hU k _
  · rw [Vigenere.Encode_eq tag m key hne hk]
    exact Vigenere.upper_encodeFrom hg hUa key m 0 i hi
  · rw [Vigenere.Decode_eq tag m key hne hk]
    exact Vigenere.upper_decodeFrom hg hUa key m 0 i hi

theorem case_preserved_witness :
    IsUpper (charAt (Caesar.Encode (wstr "Hi, Мир") 3) 4) = IsUpper (charAt (wstr "Hi, Мир") 4) ∧
      IsUpper (charAt (Caesar.Decode (wstr "Hi, Мир") 3) 4) =
        IsUpper (charAt (wstr "Hi, Мир") 4) ∧
      IsUpper (charAt (Vigenere.Encode (wstr "ru") (wstr "Hi, Мир") (wstr "ёж")) 4) =
        IsUpper (charAt (wstr "Hi, Мир") 4) ∧
      IsUpper (charAt (Vigenere.Decode (wstr "ru") (wstr "Hi, Мир") (wstr "ёж")) 4) =
        IsUpper (charAt (wstr "Hi, Мир") 4) :=
  case_preserved IsUpper (Or.inl rfl) (wstr "Hi, Мир") 3 (wstr "ru") (wstr "ёж") (Or.inr rfl)
    (by decide) 4 (by decide)

/-- C9: a character of the message that is not a letter of the Latin or of the
Cyrillic alphabet in either case stands unchanged at the same position of
`Caesar::Encode` and of `Caesar::Decode`, for every key; in particular
`Encode("Hi! 123", 5)` ends with `! 123`. -/
theorem Caesar.pass_through (m : List Nat) (k i : Nat) (hi : i < m.length)
    (hc : isLetter (charAt m i) = false) :
    charAt (Caesar.Encode m k) i = charAt m i ∧ charAt (Caesar.Decode m k) i = charAt m i ∧
      wstr "! 123" <:+ Caesar.Encode (wstr "Hi! 123") 5 := by
  obtain ⟨h1, h2⟩ := not_mem_of_isLetter_false hc
  refine ⟨?_, ?_, ⟨wstr "Hn", by decide⟩⟩
  · rw [Caesar.Encode_eq_map, charAt_map _ _ _ hi]
    exact Caesar.shift_encodeChar_of_not_mem k h1 h2
  · rw [Caesar.Decode_eq_map, charAt_map _ _ _ hi]
    exact Caesar.shift_decodeChar_of_not_mem k h1 h2

theorem Caesar.pass_through_witness :
    isLetter (charAt (wstr "Hi! 123") 2) = false ∧
      charAt (Caesar.Encode (wstr "Hi! 123") 5) 2 = wch '!' ∧
      charAt (Caesar.Decode (wstr "Hi! 123") 5) 2 = wch '!' :=
  ⟨by decide,
    (Caesar.pass_through (wstr "Hi! 123") 5 2 (by decide) (by decide)).1,
    (Caesar.pass_through (wstr "Hi! 123") 5 2 (by decide) (by decide)).2.1⟩

/-- C10: for a tag `en` or `ru`, a key accepted by `VerifyKey` and a character
`c` outside the alphabet chosen by the tag, `Vigenere::Encode` of
`xs ++ [c] ++ ys` is `Vigenere::Encode` of `xs ++ ys` with `c` inserted at
position `|xs|`, and the same holds for `Vigenere::Decode`: the character is
copied and the key cursor does not move. -/
theorem Vigenere.pass_through_keeps_cursor (tag key xs ys : List Nat) (c : Nat)
    (ht : tag = wstr "en" ∨ tag = wstr "ru") (hv : Vigenere.VerifyKey tag key = true)
    (hc : c ∉ Vigenere.selectAlphabet tag) :
    Vigenere.Encode tag (xs ++ [c] ++ ys) key =
        (Vigenere.Encode tag (xs ++ ys) key).take xs.length ++
          c :: (Vigenere.Encode tag (xs ++ ys) key).drop xs.length ∧
      Vigenere.Decode tag (xs ++ [c] ++ ys) key =
        (Vigenere.Decode tag (xs ++ ys) key).take xs.length ++
          c :: (Vigenere.Decode tag (xs ++ ys) key).drop xs.length := by
  have hne : tag ≠ [] := by
    rcases ht with e | e <;> (rw [e]; decide)
  obtain ⟨-, hk, -⟩ := (Vigenere.VerifyKey_iff tag key).1 hv
  have hg := good_select tag
  have hassoc : xs ++ [c] ++ ys = xs ++ c :: ys := by simp
  rw [hassoc]
  constructor
  · rw [Vigenere.Encode_eq tag _ key hne hk, Vigenere.Encode_eq tag _ key hne hk,
      Vigenere.encodeFrom_append, Vigenere.encodeFrom_append]
    simp only [Vigenere.encodeFrom]
    rw [Vigenere.encodeChar_of_not_mem hg key _ hc, Vigenere.nextKpos_of_not_mem hg key _ hc]
    exact insert_at_length _ _ c _ (Vigenere.length_encodeFrom _ _ _ _ _)
  · rw [Vigenere.Decode_eq tag _ key hne hk, Vigenere.Decode_eq tag _ key hne hk,
      Vigenere.decodeFrom_append, Vigenere.decodeFrom_append]
    simp only [Vigenere.decodeFrom]
    rw [Vigenere.decodeChar_of_not_mem hg key _ hc, Vigenere.nextKpos_of_not_mem hg key _ hc]
    exact insert_at_length _ _ c _ (Vigenere.length_decodeFrom _ _ _ _ _)

theorem Vigenere.pass_through_keeps_cursor_witness :
    wch 'ж' ∉ Vigenere.selectAlphabet (wstr "en") ∧
      Vigenere.Encode (wstr "en") (wstr "at" ++ [wch 'ж'] ++ wstr "tack") (wstr "lemon") =
        (Vigenere.Encode (wstr "en") (wstr "at" ++ wstr "tack") (wstr "lemon")).take
            (wstr "at").length ++
          wch 'ж' ::
            (Vigenere.Encode (wstr "en") (wstr "at" ++ wstr "tack") (wstr "lemon")).drop
              (wstr "at").length :=
  ⟨by decide,
    (Vigenere.pass_through_keeps_cursor (wstr "en") (wstr "lemon") (wstr "at") (wstr "tack")
      (wch 'ж') (Or.inl rfl) (by decide) (by decide)).1⟩

/-- C11: for every key up to 33 (the lower bound 1 is not needed) and every
message, a lower-case Cyrillic letter at position `p` of the 33-letter alphabet
(with `ё` at position 6) is replaced by `Caesar::Encode` with the letter at
position `(p + k) mod 33`, and a lower-case Latin letter at position `p` with
the letter at position `(p + k) mod 26`; in particular `Encode("привет", 2)` is
`сткджф`. -/
theorem Caesar.Encode_lower_case_letters (m : List Nat) (k : Nat) (hk : k ≤ 33) (i : Nat)
    (hi : i < m.length) :
    (charAt m i ∈ ALPHABET_RU →
        charAt (Caesar.Encode m k) i =
          charAt ALPHABET_RU ((find ALPHABET_RU (charAt m i) + k) % 33)) ∧
      (charAt m i ∈ ALPHABET_EN →
        charAt (Caesar.Encode m k) i =
          charAt ALPHABET_EN ((find ALPHABET_EN (charAt m i) + k) % 26)) ∧
      ALPHABET_RU = wstr "абвгдеёжзийклмнопрстуфхцчшщъыьэюя" ∧
      ALPHABET_RU.length = 33 ∧ find ALPHABET_RU (wch 'ё') = 6 ∧
      Caesar.Encode (wstr "привет") 2 = wstr "сткджф" := by
  rw [Caesar.Encode_eq_map, charAt_map _ _ _ hi]
  refine ⟨fun h => ?_, fun h => ?_, rfl, by decide, by decide, by decide⟩
  · have hp := (good_RU.of_mem h).2.2.1
    have hadd : addSz (find ALPHABET_RU (charAt m i)) k = find ALPHABET_RU (charAt m i) + k := by
      unfold addSz
      rw [SIZE_T_eq]
      unfold ALPHABET_RU_SIZE at hp
      omega
    rw [Caesar.encodeChar_of_RU k h, hadd]
    rfl
  · have hp := (good_EN.of_mem h).2.2.1
    have hadd : addSz (find ALPHABET_EN (charAt m i)) k = find ALPHABET_EN (charAt m i) + k := by
      unfold addSz
      rw [SIZE_T_eq]
      unfold ALPHABET_EN_SIZE at hp
      omega
    rw [Caesar.encodeChar_of_EN k h, hadd]
    rfl

theorem Caesar.Encode_lower_case_letters_witness :
    charAt (wstr "эюя, xyz") 2 ∈ ALPHABET_RU ∧
      charAt (Caesar.Encode (wstr "эюя, xyz") 33) 2 =
        charAt ALPHABET_RU ((find ALPHABET_RU (charAt (wstr "эюя, xyz") 2) + 33) % 33) :=
  ⟨by decide,
    (Caesar.Encode_lower_case_letters (wstr "эюя, xyz") 33 (by decide) 2 (by decide)).1
      (by decide)⟩

/-- C12: for a tag `en` or `ru` with alphabet `a` of size `n`, a key accepted
by `VerifyKey` and a message of lower-case letters of `a`, the `i`-th character
of `Vigenere::Encode` is `a[(p_i + k_(i mod |key|)) mod n]`, with `p_i` the
position of the `i`-th message character and `k_j` the position of the `j`-th
key character in `a`; in particular `attackatdawn` under `lemon` becomes
`lxfopvefrnhr`. The length of the key is a `size_t`. -/
theorem Vigenere.Encode_lower_classical (tag key m : List Nat)
    (ht : tag = wstr "en" ∨ tag = wstr "ru") (hv : Vigenere.VerifyKey tag key = true)
    (hlen : key.length < SIZE_T) (hm : ∀ c ∈ m, c ∈ Vigenere.selectAlphabet tag) (i : Nat)
    (hi : i < m.length) :
    charAt (Vigenere.Encode tag m key) i =
        charAt (Vigenere.selectAlphabet tag)
          ((find (Vigenere.selectAlphabet tag) (charAt m i) +
            find (Vigenere.selectAlphabet tag) (charAt key (i % key.length))) %
              Vigenere.selectSize tag) ∧
      (Vigenere.selectAlphabet (wstr "en") = ALPHABET_EN ∧ Vigenere.selectSize (wstr "en") = 26 ∧
        Vigenere.selectAlphabet (wstr "ru") = ALPHABET_RU ∧
        Vigenere.selectSize (wstr "ru") = 33) ∧
      Vigenere.Encode (wstr "en") (wstr "attackatdawn") (wstr "lemon") = wstr "lxfopvefrnhr" := by
  have hne : tag ≠ [] := by
    rcases ht with e | e <;> (rw [e]; decide)
  obtain ⟨-, hk, hkey⟩ := (Vigenere.VerifyKey_iff tag key).1 hv
  refine ⟨?_, by decide, by decide⟩
  have h := Vigenere.charAt_encodeFrom_of_mem (good_select tag) hk hlen hkey m hm 0 i hi
  rw [Nat.zero_mod, Nat.zero_add] at h
  rw [Vigenere.Encode_eq tag m key hne hk]
  exact h

theorem Vigenere.Encode_lower_classical_witness :
    Vigenere.VerifyKey (wstr "ru") (wstr "ёж") = true ∧
      charAt (Vigenere.Encode (wstr "ru") (wstr "привет") (wstr "ёж")) 4 =
        charAt (Vigenere.selectAlphabet (wstr "ru"))
          ((find (Vigenere.selectAlphabet (wstr "ru")) (charAt (wstr "привет") 4) +
            find (Vigenere.selectAlphabet (wstr "ru"))
              (charAt (wstr "ёж") (4 % (wstr "ёж").length))) %
                Vigenere.selectSize (wstr "ru")) :=
  ⟨by decide,
    (Vigenere.Encode_lower_classical (wstr "ru") (wstr "ёж") (wstr "привет") (Or.inr rfl)
      (by decide) (by decide) (by decide) 4 (by decide)).1⟩

/-- C13 (the code breaks the claim): `UPPER_VALUE` is `2 ^ 32 - 32`, so
`ToLower` lowers the code point by 32 and `ToUpper` raises it by 32, the
reverse of the claim: `ToLower('A')` is `!` (33), not `a`, and `ToUpper('a')`
is 129, not `A`; likewise on the Cyrillic ranges. A character outside the
ranges, such as `ё`, `Ё` or `!`, is returned unchanged. -/
theorem case_conversion_inverted :
    UPPER_VALUE = 2 ^ 32 - 32 ∧
      ToLower (wch 'A') = wch '!' ∧ ToLower (wch 'A') ≠ wch 'a' ∧
      ToUpper (wch 'a') = 129 ∧ ToUpper (wch 'a') ≠ wch 'A' ∧
      ToLower (wch 'Я') = 1039 ∧ ToLower (wch 'Я') ≠ wch 'я' ∧
      ToUpper (wch 'я') = 1135 ∧ ToUpper (wch 'я') ≠ wch 'Я' ∧
      ToLower (wch 'ё') = wch 'ё' ∧ ToUpper (wch 'Ё') = wch 'Ё' ∧
      ToLower (wch '!') = wch '!' ∧ ToUpper (wch '!') = wch '!' := by
  decide

/-- C14: a character of the message in the ranges `A`..`Z` or `А`..`Я` stands
unchanged at the same position of `Caesar::Encode` and `Caesar::Decode` for
every key, and of `Vigenere::Encode` and `Vigenere::Decode` for every non-empty
tag and non-empty key; the case-restoring branch is never taken, because the
alphabet lookup of `ToLower(it)` fails whenever `IsUpper(it)` holds. -/
theorem upper_case_copied (m : List Nat) (k : Nat) (tag key : List Nat) (ht : tag ≠ [])
    (hk : key ≠ []) (i : Nat) (hi : i < m.length)
    (hc : (wch 'A' ≤ charAt m i ∧ charAt m i ≤ wch 'Z') ∨
      (wch 'А' ≤ charAt m i ∧ charAt m i ≤ wch 'Я')) :
    charAt (Caesar.Encode m k) i = charAt m i ∧
      charAt (Caesar.Decode m k) i = charAt m i ∧
      charAt (Vigenere.Encode tag m key) i = charAt m i ∧
      charAt (Vigenere.Decode tag m key) i = charAt m i ∧
      (∀ it : Nat, IsUpper it = true →
        find ALPHABET_EN (ToLower it) = npos ∧ find ALPHABET_RU (ToLower it) = npos ∧
          find (Vigenere.selectAlphabet tag) (ToLower it) = npos) := by
  have hup : IsUpper (charAt m i) = true := by
    rw [IsUpper_iff]
    obtain ⟨h1, h2, -, -, h5, h6, -, -⟩ := wch_vals
    rw [h1, h2, h5, h6] at hc
    exact hc
  have hg := good_select tag
  have h1 := good_EN.not_mem_of_upper hup
  have h2 := good_RU.not_mem_of_upper hup
  have h3 := hg.not_mem_of_upper hup
  refine ⟨?_, ?_, ?_, ?_, fun it hit => ⟨good_EN.find_lower_of_upper hit,
    good_RU.find_lower_of_upper hit, hg.find_lower_of_upper hit⟩⟩
  · rw [Caesar.Encode_eq_map, charAt_map _ _ _ hi]
    exact Caesar.shift_encodeChar_of_not_mem k h1 h2
  · rw [Caesar.Decode_eq_map, charAt_map _ _ _ hi]
    exact Caesar.shift_decodeChar_of_not_mem k h1 h2
  · rw [Vigenere.Encode_eq tag m key ht hk]
    exact Vigenere.charAt_encodeFrom_of_not_mem hg key m 0 i h3 hi
  · rw [Vigenere.Decode_eq tag m key ht hk]
    exact Vigenere.charAt_decodeFrom_of_not_mem hg key m 0 i h3 hi

theorem upper_case_copied_witness :
    charAt (Caesar.Encode (wstr "Hello, Мир") 3) 7 = wch 'М' ∧
      charAt (Caesar.Decode (wstr "Hello, Мир") 3) 7 = wch 'М' ∧
      charAt (Vigenere.Encode (wstr "ru") (wstr "Hello, Мир") (wstr "ключ")) 7 = wch 'М' ∧
      charAt (Vigenere.Decode (wstr "ru") (wstr "Hello, Мир") (wstr "ключ")) 7 = wch 'М' :=
  have h := upper_case_copied (wstr "Hello, Мир") 3 (wstr "ru") (wstr "ключ") (by decide)
    (by decide) 7 (by decide) (by decide)
  ⟨h.1, h.2.1, h.2.2.1, h.2.2.2.1⟩

/-- C15: for every key from 0 to 26 and every message, `Caesar::Decode` of
`Caesar::Encode` of the message is the message. -/
theorem Caesar.decode_encode_key_le_26 (m : List Nat) (k : Nat) (hk : k ≤ 26) :
    Caesar.Decode (Caesar.Encode m k) k = m := by
  rw [Caesar.Encode_eq_map, Caesar.Decode_eq_map, List.map_map]
  have hid : Caesar.decodeChar k ∘ Caesar.encodeChar k = id :=
    funext (fun c => Caesar.shift_decodeChar_encodeChar hk c)
  rw [hid, List.map_id]

theorem Caesar.decode_encode_key_le_26_witness :
    Caesar.Encode (wstr "Hello, xyz! Привет, эюя") 26 = wstr "Hello, xyz! Пйвыюл, цчш" ∧
      Caesar.Decode (Caesar.Encode (wstr "Hello, xyz! Привет, эюя") 26) 26 =
        wstr "Hello, xyz! Привет, эюя" :=
  ⟨by decide, Caesar.decode_encode_key_le_26 (wstr "Hello, xyz! Привет, эюя") 26 (by decide)⟩

/-- C16: a non-empty tag other than `en` selects the Cyrillic alphabet:
`VerifyKey`, `Encode` and `Decode` of the running-key cipher give for it what
they give for the tag `ru`. -/
theorem Vigenere.other_tag_is_ru (t m key : List Nat) (ht : t ≠ []) (hen : t ≠ wstr "en") :
    Vigenere.VerifyKey t key = Vigenere.VerifyKey (wstr "ru") key ∧
      Vigenere.Encode t m key = Vigenere.Encode (wstr "ru") m key ∧
      Vigenere.Decode t m key = Vigenere.Decode (wstr "ru") m key := by
  have hru : wstr "ru" ≠ wstr "en" := by decide
  obtain ⟨ha, hn⟩ := select_of_ne_en hen
  obtain ⟨ha', hn'⟩ := select_of_ne_en hru
  have he : t.isEmpty = false := by simp [List.isEmpty_iff, ht]
  have he' : (wstr "ru").isEmpty = false := by decide
  refine ⟨?_, ?_, ?_⟩
  · unfold Vigenere.VerifyKey
    rw [ha, ha', he, he']
  · unfold Vigenere.Encode
    rw [ha, ha', hn, hn', he, he']
  · unfold Vigenere.Decode
    rw [ha, ha', hn, hn', he, he']

theorem Vigenere.other_tag_is_ru_witness :
    Vigenere.VerifyKey (wstr "de") (wstr "ключ") = Vigenere.VerifyKey (wstr "ru") (wstr "ключ") ∧
      Vigenere.Encode (wstr "de") (wstr "привет") (wstr "ключ") =
        Vigenere.Encode (wstr "ru") (wstr "привет") (wstr "ключ") ∧
      Vigenere.Decode (wstr "de") (wstr "привет") (wstr "ключ") =
        Vigenere.Decode (wstr "ru") (wstr "привет") (wstr "ключ") :=
  Vigenere.other_tag_is_ru (wstr "de") (wstr "привет") (wstr "ключ") (by decide) (by decide)

/-- C17 as stated is false: `Ё` (U+0401) is the upper-case form of the letter
`ё` of the Cyrillic alphabet, and `IsUpper` is false on it. -/
theorem IsUpper_false_on_yo :
    IsUpper (wch 'Ё') = false ∧ wch 'Ё' = 1025 ∧ wch 'ё' ∈ ALPHABET_RU ∧
      upperForm (wch 'ё') = wch 'Ё' ∧
      ¬ (IsUpper (wch 'Ё') = true ↔
        ((wch 'A' ≤ wch 'Ё' ∧ wch 'Ё' ≤ wch 'Z') ∨
          ∃ d ∈ ALPHABET_RU, wch 'Ё' = upperForm d)) := by
  decide

/-- C17 amended: `IsUpper(c)` is true exactly when `c` lies in `A`..`Z` or in
the range `А`..`Я` (U+0410 to U+042F), that is, when `c` is an upper-case Latin
letter or the upper-case form of one of the 32 letters of the Cyrillic alphabet
other than `ё`; `IsUpper` is false on `Ё`. -/
theorem IsUpper_exact (c : Nat) :
    (IsUpper c = true ↔
        (wch 'A' ≤ c ∧ c ≤ wch 'Z') ∨ (wch 'А' ≤ c ∧ c ≤ wch 'Я')) ∧
      (IsUpper c = true ↔
        (wch 'A' ≤ c ∧ c ≤ wch 'Z') ∨
          ∃ d ∈ ALPHABET_RU, d ≠ wch 'ё' ∧ c = upperForm d) ∧
      IsUpper (wch 'Ё') = false := by
  obtain ⟨h1, h2, -, -, h5, h6, -, -⟩ := wch_vals
  obtain ⟨hyo, hYo⟩ := wch_yo
  have hform : (∃ d ∈ ALPHABET_RU, d ≠ wch 'ё' ∧ c = upperForm d) ↔ (1040 ≤ c ∧ c ≤ 1071) := by
    constructor
    · rintro ⟨d, hd, hne, rfl⟩
      rw [mem_ALPHABET_RU] at hd
      rw [hyo] at hne
      unfold upperForm
      rw [hyo, if_neg hne]
      omega
    · intro hc
      refine ⟨c + 32, ?_, ?_, ?_⟩
      · rw [mem_ALPHABET_RU]; omega
      · rw [hyo]; omega
      · unfold upperForm
        rw [hyo, if_neg (by omega)]
        omega
  refine ⟨?_, ?_, by decide⟩
  · rw [IsUpper_iff, h1, h2, h5, h6]
  · rw [IsUpper_iff, h1, h2, hform]

end Crypto
